import Mathlib

/-!
Verification of the single-word Myers bit-parallel approximate string
matcher of `src/pattern_matching/myers/myers_impl.rs` (rust-bio).

Bit vectors of the word type `T` are embedded as `Nat` values together with
an explicit word width `w` (`word_size::<T>()`); word arithmetic is `% 2 ^ w`.
The distance type `D` is embedded as `Nat` together with its representable
ceiling `Dmax` (`D::max_value()`, the `$max_dist` macro argument); saturating
arithmetic clamps at `Dmax` and at `0`.  Fallible operations (`unwrap`,
`from_u64`) are embedded as `Option`.
-/

/-- Fuelled binary-digit sum; the fuel only drives structural recursion and
is irrelevant as soon as it dominates the value. -/
def popcountFuel : Nat → Nat → Nat
  | 0, _ => 0
  | _ + 1, 0 => 0
  | n + 1, f + 1 => (n + 1) % 2 + popcountFuel ((n + 1) / 2) f

/-- Number of set binary digits (models `count_ones` of the word type). -/
def popcount (n : Nat) : Nat := popcountFuel n n

/-- The all-ones word (`T::max_value()` for a word of width `w`). -/
def allOnes (w : Nat) : Nat := 2 ^ w - 1

/-- The algorithm state (src `State`): two bit vectors `pv`/`mv` and the
distance `dist` of the bottom DP cell of the current column. -/
structure MState where
  pv : Nat
  mv : Nat
  dist : Nat
deriving DecidableEq, Repr

/-- `State::init` (src): `pv = T::max_value()`, `mv = 0`, `dist = m`. -/
def State.init (w m : Nat) : MState := ⟨allOnes w, 0, m⟩

/-- Equality bitmask of a symbol against the pattern: bit `i` is set iff
pattern position `i` holds the symbol (the `peq` table of the engine). -/
def eqmask (p : List Nat) (a : Nat) : Nat :=
  match p with
  | [] => 0
  | b :: rest => (if b = a then 1 else 0) + 2 * eqmask rest a

/-- Modelled from the spec: §4.1 step 2, `Xv = Eq | mv` (the body of
`Myers::step` is outside the excerpt; only its formulas are specified). -/
def stepXv (eqm mv : Nat) : Nat := eqm ||| mv

/-- Modelled from the spec: §4.1 step 3,
`Xh = (((Eq & pv) + pv) ^ pv) | Eq`, using unsigned word addition. -/
def stepXh (w eqm pv : Nat) : Nat := ((((eqm &&& pv) + pv) % 2 ^ w) ^^^ pv) ||| eqm

/-- Modelled from the spec: §4.1 step 4, `Ph = mv | NOT(Xh | pv)`. -/
def stepPh (w eqm : Nat) (s : MState) : Nat :=
  s.mv ||| (allOnes w ^^^ (allOnes w &&& (stepXh w eqm s.pv ||| s.pv)))

/-- Modelled from the spec: §4.1 step 4, `Mh = pv & Xh`. -/
def stepMh (w eqm : Nat) (s : MState) : Nat := s.pv &&& stepXh w eqm s.pv

/-- Modelled from the spec: §4.1, the full transition `step(state, symbol)`:
bottom-row carry into `dist` (step 5, saturating at `Dmax` and `0`), then
shift of `Ph`/`Mh` (step 6) and the new vertical vectors (step 7). -/
def step (w Dmax m eqm : Nat) (s : MState) : MState :=
  { pv := ((stepMh w eqm s <<< 1) % 2 ^ w) |||
          (allOnes w ^^^ (allOnes w &&& (stepXv eqm s.mv ||| ((stepPh w eqm s <<< 1) % 2 ^ w)))),
    mv := ((stepPh w eqm s <<< 1) % 2 ^ w) &&& stepXv eqm s.mv,
    dist :=
      if (stepPh w eqm s).testBit (m - 1) then min (s.dist + 1) Dmax
      else if (stepMh w eqm s).testBit (m - 1) then s.dist - 1
      else s.dist }

/-- `Myers::distance` (src lines 163-181): start from `dist = $max_dist` and
the initial column, step once per text symbol, and keep the least bottom-row
distance seen (`known_dist` of the single-word state is always present). -/
def distance (w Dmax : Nat) (p t : List Nat) : Nat :=
  (t.foldl
    (fun acc a =>
      let s := step w Dmax p.length (eqmask p a) acc.2
      (if s.dist < acc.1 then s.dist else acc.1, s))
    (Dmax, State.init w p.length)).1

/-- The full yield sequence of `Matches` (src `Matches::next`, lines 284-294):
scan the enumerated text, stepping once per symbol, and emit `(index, dist)`
whenever `dist ≤ max_dist`. -/
def matchesAux (w Dmax m maxDist : Nat) (p : List Nat) :
    MState → Nat → List Nat → List (Nat × Nat)
  | _, _, [] => []
  | s, i, a :: rest =>
    let s' := step w Dmax m (eqmask p a) s
    if s'.dist ≤ maxDist then (i, s'.dist) :: matchesAux w Dmax m maxDist p s' (i + 1) rest
    else matchesAux w Dmax m maxDist p s' (i + 1) rest

/-- `Myers::find_all_end` (src lines 185-195): the eager end-only iterator,
constructed with `max_dist.min($max_dist)`, given as its full yield list. -/
def find_all_end (w Dmax : Nat) (p t : List Nat) (maxDist : Nat) : List (Nat × Nat) :=
  matchesAux w Dmax p.length (min maxDist Dmax) p (State.init w p.length) 0 t

/-- Rust's `Iterator::min_by_key` on pairs keyed by the second component:
`None` on an empty iterator, otherwise the first minimal element. -/
def min_by_key : List (Nat × Nat) → Option (Nat × Nat)
  | [] => none
  | x :: xs => some (xs.foldl (fun acc y => if y.2 < acc.2 then y else acc) x)

/-- `Myers::find_best_end` (src lines 197-207):
`find_all_end(text, $max_dist).min_by_key(dist).unwrap()`; `none` embeds the
`unwrap` panic on an empty scan. -/
def find_best_end (w Dmax : Nat) (p t : List Nat) : Option (Nat × Nat) :=
  min_by_key (find_all_end w Dmax p t Dmax)

/-- The `(end, distance)` yield sequence of `FullMatches::next_end`
(src lines 352-369); `FullMatches::new` (src line 224) clamps the requested
bound to `max_dist.min($max_dist)`.  The traceback append performed by
`step_trace` does not influence the yields. -/
def full_matches_ends (w Dmax : Nat) (p t : List Nat) (maxDist : Nat) : List (Nat × Nat) :=
  matchesAux w Dmax p.length (min maxDist Dmax) p (State.init w p.length) 0 t

/-- The `(end, distance)` yield sequence of `LazyMatches::next`
(src lines 524-541); `LazyMatches::new` (src line 240) clamps the requested
bound to `max_dist.min($max_dist)`. -/
def lazy_matches_ends (w Dmax : Nat) (p t : List Nat) (maxDist : Nat) : List (Nat × Nat) :=
  matchesAux w Dmax p.length (min maxDist Dmax) p (State.init w p.length) 0 t

/-- Substitution cost of text symbol `a` against pattern row `i + 1`. -/
def subCost (p : List Nat) (a : Nat) (i : Nat) : Nat := if p[i]? = some a then 0 else 1

/-- One column advance of the reference quadratic DP: from the column for a
text prefix to the column after consuming one more symbol `a`.  Row `0` is
free (semi-global: a match may start anywhere). -/
def dpNext (p : List Nat) (a : Nat) (prev : Nat → Nat) : Nat → Nat
  | 0 => 0
  | i + 1 =>
    min (min (prev i + subCost p a i) (dpNext p a prev i + 1)) (prev (i + 1) + 1)

/-- The reference DP column for the whole text `t`: column `0` is
`fun i => i`, then one `dpNext` per symbol. -/
def dpCol (p t : List Nat) : Nat → Nat :=
  t.foldl (fun prev a => dpNext p a prev) id

/-- Bottom-row (`row m`) value of the reference DP at end position `j`
(after `j` text symbols). -/
def dpEnd (p t : List Nat) (j : Nat) : Nat := dpCol p (t.take j) p.length

/-- Reference bottom-row distances at every end position of the text:
entry `j` is the minimum edit distance of an occurrence ending at text
index `j` (column `j + 1`). -/
def refDists (p t : List Nat) : List Nat :=
  (List.range t.length).map (fun j => dpEnd p t (j + 1))

/-- Minimum of a list of naturals (`None` when empty). -/
def listMin : List Nat → Option Nat
  | [] => none
  | a :: l => some (l.foldl min a)

/-- `State::adjust_up_by` (src lines 70-77): move the distance from cell
`C(j)` up to `C(j - n)` by one popcount over the range mask, computed through
wrapping `u64` arithmetic (`to_u64`/`wrapping_add`/`wrapping_sub`), then
converted back with `D::from_u64(..).unwrap()`.  `none` embeds the panics of
the two `unwrap`s (`to_u64` of a value beyond `u64`, or a result that the
distance type cannot represent). -/
def adjust_up_by (Dmax : Nat) (s : MState) (range_mask : Nat) : Option MState :=
  if s.dist < 2 ^ 64 then
    let p := popcount (s.pv &&& range_mask)
    let m := popcount (s.mv &&& range_mask)
    let d1 := (s.dist + m) % 2 ^ 64
    let d2 := (d1 + (2 ^ 64 - p % 2 ^ 64)) % 2 ^ 64
    if d2 ≤ Dmax then some { s with dist := d2 } else none
  else none

/-- `State::adjust_one_up` (src lines 97-108): single-bit variant; the
distance moves by one according to which of `pv`/`mv` holds the bit.
`none` embeds the debug panic of `dist -= 1` / `dist += 1` when the result
leaves the distance type's range. -/
def adjust_one_up (Dmax : Nat) (s : MState) (pos_mask : Nat) : Option MState :=
  if s.pv &&& pos_mask ≠ 0 then
    if s.dist = 0 then none else some { s with dist := s.dist - 1 }
  else if s.mv &&& pos_mask ≠ 0 then
    if s.dist + 1 ≤ Dmax then some { s with dist := s.dist + 1 } else none
  else some s

/-- `State::_adjust_up_by` (src lines 84-89): `n` repetitions of
`adjust_one_up`, shifting the single-bit mask left (within the word) after
each repetition. -/
def _adjust_up_by (Dmax w : Nat) : MState → Nat → Nat → Option MState
  | s, _, 0 => some s
  | s, pos_mask, n + 1 =>
    (adjust_one_up Dmax s pos_mask).bind
      (fun s' => _adjust_up_by Dmax w s' ((pos_mask <<< 1) % 2 ^ w) n)

/-- Alignment operations (`crate::alignment::AlignmentOperation`, an external
collaborator type): match, substitution, deletion, insertion. -/
inductive AlignOp
  | mtch
  | subst
  | del
  | ins
deriving DecidableEq, Repr

/-- The part of a `FullMatches` iterator (src lines 300-345) that its query
methods read: the `unsuccessfully_finished` flag (initialized `false` by
`new`), the current end position `pos` (initialized `0`), and the traceback
answer for the most recently added column.

The `tb` field is modelled from the spec: §4.3, `Traceback::traceback`
returns `(alignment_length, distance)` for the most recently added column
and emits the edit operations oldest-last (reverse order) into the sink; for
the single-word engine that column is always retained, so the result is
always present. -/
structure FullMatchesView where
  unsuccessfully_finished : Bool
  pos : Nat
  tb : List AlignOp × Nat × Nat
deriving DecidableEq, Repr

/-- `FullMatches::start` (src lines 410-420): `None` when the scan finished
without a hit, else `pos + 1 - alignment_length` of the current hit. -/
def FullMatchesView.start (fm : FullMatchesView) : Option Nat :=
  if fm.unsuccessfully_finished then none
  else some (fm.pos + 1 - fm.tb.2.1)

/-- `FullMatches::path_reverse` (src lines 440-450): `None` (leaving `ops`
untouched) when the scan finished without a hit; otherwise clear `ops`, let
the traceback push the reverse-order operations, and return the start.
The result pairs the final contents of `ops` with the returned value. -/
def FullMatchesView.path_reverse (fm : FullMatchesView) (ops : List AlignOp) :
    List AlignOp × Option Nat :=
  if fm.unsuccessfully_finished then (ops, none)
  else (fm.tb.1, some (fm.pos + 1 - fm.tb.2.1))

/-- `FullMatches::path` (src lines 428-433): run `path_reverse`, then (on
success) reverse the operations in place. -/
def FullMatchesView.path (fm : FullMatchesView) (ops : List AlignOp) :
    List AlignOp × Option Nat :=
  match fm.path_reverse ops with
  | (ops', some pos) => (ops'.reverse, some pos)
  | (ops', none) => (ops', none)

/-- `FullMatches::alignment` (src lines 456-479): `false` when the scan
finished without a hit; otherwise (`known_dist` of the single-word state is
always present, src lines 46-49) the alignment value is rebuilt and `true`
returned.  Only the success flag is relevant to the claims. -/
def FullMatchesView.alignment (fm : FullMatchesView) : Bool :=
  if fm.unsuccessfully_finished then false else true

/-- The part of a `LazyMatches` iterator (src lines 500-569) its by-position
queries read, modelled from the spec: §4.3, `Traceback::traceback_at` yields
`(alignment_length, distance)` for a previously visited end position, absent
when that column is unknown, with operations emitted oldest-last into the
sink. -/
structure LazyMatchesView where
  tb_at : Nat → Option (List AlignOp × Nat × Nat)

/-- `LazyMatches::path_at_reverse` (src lines 608-616): query the traceback
at `end_pos`; on success the sink holds the reverse-order operations and
`(end_pos + 1 - alignment_length, dist)` is returned. -/
def LazyMatchesView.path_at_reverse (lm : LazyMatchesView) (end_pos : Nat)
    (ops : List AlignOp) : List AlignOp × Option (Nat × Nat) :=
  match lm.tb_at end_pos with
  | none => (ops, none)
  | some (tbops, len, dist) => (tbops, some (end_pos + 1 - len, dist))

/-- `LazyMatches::path_at` (src lines 593-602): run `path_at_reverse`, then
(on success) reverse the operations in place. -/
def LazyMatchesView.path_at (lm : LazyMatchesView) (end_pos : Nat)
    (ops : List AlignOp) : List AlignOp × Option (Nat × Nat) :=
  match lm.path_at_reverse end_pos ops with
  | (ops', some rv) => (ops'.reverse, some rv)
  | (ops', none) => (ops', none)

/-- The `FullMatches` query view immediately after construction (src lines
335-345 set `pos = 0` and `unsuccessfully_finished = false`), before any call
to `next_end`.  The traceback field is modelled from the spec: §4.3 — at this
point the store holds only the initial column, whose traceback answer is
present with alignment length `0` and distance `m` (here `m = 4`). -/
def freshFullMatches : FullMatchesView := ⟨false, 0, ([], 0, 4)⟩

/-- The carry into bit `i` of the addition `a + b`. -/
def addCarry (a b i : Nat) : Bool := decide (2 ^ i ≤ a % 2 ^ i + b % 2 ^ i)

/-- Well-formedness of a DP column: the free top row is `0` and vertically
adjacent cells differ by at most one. -/
def VertOK (C : Nat → Nat) : Prop :=
  C 0 = 0 ∧ ∀ i, C (i + 1) ≤ C i + 1 ∧ C i ≤ C (i + 1) + 1

/-- The state encodes a DP column `C`: `dist` is the bottom cell `C m`, and
for rows below `m` the `pv`/`mv` bits are exactly the `+1` / `-1` vertical
deltas of the column (bits at positions `≥ m` are unconstrained). -/
def Encodes (m : Nat) (s : MState) (C : Nat → Nat) : Prop :=
  s.dist = C m
  ∧ (∀ i < m, (s.pv.testBit i = true ↔ C (i + 1) = C i + 1))
  ∧ (∀ i < m, (s.mv.testBit i = true ↔ C i = C (i + 1) + 1))

/-- Bottom-row distances reported by successive `step`s from state `s`. -/
def distTrace (w Dmax : Nat) (p : List Nat) : MState → List Nat → List Nat
  | _, [] => []
  | s, a :: rest =>
    let s2 := step w Dmax p.length (eqmask p a) s
    s2.dist :: distTrace w Dmax p s2 rest

/-- Bottom-row values of successive reference DP columns from column `C`. -/
def dpTrace (p : List Nat) : (Nat → Nat) → List Nat → List Nat
  | _, [] => []
  | C, a :: rest => dpNext p a C p.length :: dpTrace p (dpNext p a C) rest

/-- Pair each distance of a trace with its text index, starting at `k`
(the `enumerate` of the scan). -/
def enumDists (k : Nat) : List Nat → List (Nat × Nat)
  | [] => []
  | d :: rest => (k, d) :: enumDists (k + 1) rest

/-- The fold performed by `min_by_key` from an accumulator. -/
def pickFold (acc : Nat × Nat) (l : List (Nat × Nat)) : Nat × Nat :=
  l.foldl (fun a y => if y.2 < a.2 then y else a) acc

/-- Number of set bits among the lowest `n` bits of `y`. -/
def countLow (y : Nat) : Nat → Nat
  | 0 => 0
  | n + 1 => (y.testBit 0).toNat + countLow (y / 2) n

/-! ## Theorems -/

theorem popcountFuel_stable :
    ∀ n f g, n ≤ f → n ≤ g → popcountFuel n f = popcountFuel n g := by
  intro n
  induction n using Nat.strong_induction_on with
  | _ n ih =>
    intro f g hf hg
    match n, f, g with
    | 0, _, _ => simp [popcountFuel]
    | n + 1, f + 1, g + 1 =>
      have hdiv : (n + 1) / 2 < n + 1 := Nat.div_lt_self (Nat.succ_pos n) (by omega)
      simp only [popcountFuel]
      exact congrArg _ (ih _ hdiv _ _ (by omega) (by omega))

theorem popcount_div2 (n : Nat) : popcount n = n % 2 + popcount (n / 2) := by
  cases n with
  | zero => rfl
  | succ k =>
    have hdiv : (k + 1) / 2 < k + 1 := Nat.div_lt_self (Nat.succ_pos k) (by omega)
    show popcountFuel (k + 1) (k + 1) = _
    simp only [popcountFuel]
    exact congrArg _ (popcountFuel_stable _ _ _ (by omega) le_rfl)

theorem popcount_le_self (n : Nat) : popcount n ≤ n := by
  induction n using Nat.strong_induction_on with
  | _ n ih =>
    rcases Nat.eq_zero_or_pos n with h | h
    · subst h; simp [popcount, popcountFuel]
    · have hdiv : n / 2 < n := Nat.div_lt_self h (by omega)
      have := ih _ hdiv
      rw [popcount_div2]
      omega

/-- Evaluation of `adjust_up_by` under the representability precondition:
the wrapping `u64` arithmetic cancels and the distance moves exactly by
`- popcount (pv &&& mask) + popcount (mv &&& mask)`. -/
theorem adjust_up_by_eval (w Dmax : Nat) (s : MState) (range_mask : Nat)
    (hw : w ≤ 64) (hpv : s.pv < 2 ^ w)
    (hD : Dmax < 2 ^ 64) (hd : s.dist ≤ Dmax)
    (hlo : popcount (s.pv &&& range_mask) ≤ s.dist + popcount (s.mv &&& range_mask))
    (hhi : s.dist + popcount (s.mv &&& range_mask) - popcount (s.pv &&& range_mask) ≤ Dmax) :
    adjust_up_by Dmax s range_mask =
      some ⟨s.pv, s.mv,
        s.dist + popcount (s.mv &&& range_mask) - popcount (s.pv &&& range_mask)⟩ := by
  have hple : popcount (s.pv &&& range_mask) < 2 ^ 64 := by
    have h1 : s.pv &&& range_mask ≤ s.pv := Nat.and_le_left
    have h2 : popcount (s.pv &&& range_mask) ≤ s.pv &&& range_mask := popcount_le_self _
    have h3 : (2 : Nat) ^ w ≤ 2 ^ 64 := Nat.pow_le_pow_right (by omega) hw
    omega
  set p := popcount (s.pv &&& range_mask) with hp
  set m := popcount (s.mv &&& range_mask) with hm
  have hdist64 : s.dist < 2 ^ 64 := by omega
  have hpmod : p % 2 ^ 64 = p := Nat.mod_eq_of_lt hple
  have hstep : ((s.dist + m) % 2 ^ 64 + (2 ^ 64 - p % 2 ^ 64)) % 2 ^ 64 = s.dist + m - p := by
    rw [hpmod, Nat.mod_add_mod]
    have he : s.dist + m + (2 ^ 64 - p) = (s.dist + m - p) + 2 ^ 64 := by omega
    rw [he, Nat.add_mod_right]
    exact Nat.mod_eq_of_lt (by omega)
  simp only [adjust_up_by, if_pos hdist64, hstep, if_pos hhi]

/-- C3: for a non-malformed call (a range mask of `n` contiguous bits at rows
`j - n` … `j - 1`, excluding row `j`), `adjust_up_by` changes the state's
distance exactly by subtracting `popcount (pv &&& range_mask)` and adding
`popcount (mv &&& range_mask)`, leaving `pv`/`mv` untouched, provided the
resulting distance is representable in the distance type (non-negative and
at most `Dmax`). -/
theorem adjust_up_by_rolls_back (w Dmax n j : Nat) (s : MState) (range_mask : Nat)
    (hmask : range_mask = (2 ^ n - 1) <<< (j - n)) (hnj : n ≤ j)
    (hw : w ≤ 64) (hpv : s.pv < 2 ^ w)
    (hD : Dmax < 2 ^ 64) (hd : s.dist ≤ Dmax)
    (hlo : popcount (s.pv &&& range_mask) ≤ s.dist + popcount (s.mv &&& range_mask))
    (hhi : s.dist + popcount (s.mv &&& range_mask) - popcount (s.pv &&& range_mask) ≤ Dmax) :
    adjust_up_by Dmax s range_mask =
      some ⟨s.pv, s.mv,
        s.dist + popcount (s.mv &&& range_mask) - popcount (s.pv &&& range_mask)⟩ :=
  adjust_up_by_eval w Dmax s range_mask hw hpv hD hd hlo hhi

theorem adjust_up_by_rolls_back_witness :
    adjust_up_by 10 ⟨6, 1, 2⟩ 3 = some ⟨6, 1, 2⟩ :=
  adjust_up_by_rolls_back 3 10 2 2 ⟨6, 1, 2⟩ 3 (by decide) (by decide) (by decide)
    (by decide) (by decide) (by decide) (by decide) (by decide)

/-- C6: `find_best_end` on an empty text panics at the `unwrap` (embedded as
`none`): the scan yields nothing, `min_by_key` is `None`, and no fallback
result is fabricated. -/
theorem find_best_end_on_empty_text (w Dmax : Nat) (p : List Nat) :
    find_best_end w Dmax p [] = none := rfl

/-- C7: a requested `max_dist` above the distance type's ceiling `Dmax` is
silently clamped: `find_all_end`, `find_all` and `find_all_lazy` behave
exactly as with `max_dist = Dmax`, and no error is raised (the searches are
total). -/
theorem searches_clamp_max_dist (w Dmax maxDist : Nat) (p t : List Nat)
    (h : Dmax < maxDist) :
    find_all_end w Dmax p t maxDist = find_all_end w Dmax p t Dmax ∧
    full_matches_ends w Dmax p t maxDist = full_matches_ends w Dmax p t Dmax ∧
    lazy_matches_ends w Dmax p t maxDist = lazy_matches_ends w Dmax p t Dmax := by
  have hmin : min maxDist Dmax = min Dmax Dmax := by omega
  exact ⟨by simp [find_all_end, hmin], by simp [full_matches_ends, hmin],
    by simp [lazy_matches_ends, hmin]⟩

theorem searches_clamp_max_dist_witness :
    find_all_end 2 3 [0] [0, 1] 5 = find_all_end 2 3 [0] [0, 1] 3 ∧
    full_matches_ends 2 3 [0] [0, 1] 5 = full_matches_ends 2 3 [0] [0, 1] 3 ∧
    lazy_matches_ends 2 3 [0] [0, 1] 5 = lazy_matches_ends 2 3 [0] [0, 1] 3 :=
  searches_clamp_max_dist 2 3 5 [0] [0, 1] (by decide)

/-- C8: for every successful query, the forward-order operation list
(`path` / `path_at`) is the exact reverse of the reverse-order list
(`path_reverse` / `path_at_reverse`), and both report the same start
position (and, for the lazy queries, the same distance). -/
theorem path_is_reverse_of_path_reverse :
    (∀ (fm : FullMatchesView) (ops0 ops : List AlignOp) (s : Nat),
      fm.path_reverse ops0 = (ops, some s) →
      fm.path ops0 = (ops.reverse, some s)) ∧
    (∀ (lm : LazyMatchesView) (e : Nat) (ops0 ops : List AlignOp) (r : Nat × Nat),
      lm.path_at_reverse e ops0 = (ops, some r) →
      lm.path_at e ops0 = (ops.reverse, some r)) := by
  constructor
  · intro fm ops0 ops s h
    simp [FullMatchesView.path, h]
  · intro lm e ops0 ops r h
    simp [LazyMatchesView.path_at, h]

theorem path_is_reverse_of_path_reverse_witness :
    (⟨false, 3, ([AlignOp.del, AlignOp.mtch], 2, 1)⟩ : FullMatchesView).path [] =
      ([AlignOp.mtch, AlignOp.del], some 2) ∧
    (LazyMatchesView.mk (fun _ => some ([AlignOp.ins, AlignOp.subst], 2, 1))).path_at 3 [] =
      ([AlignOp.subst, AlignOp.ins], some (2, 1)) :=
  ⟨path_is_reverse_of_path_reverse.1 _ [] [AlignOp.del, AlignOp.mtch] 2 rfl,
   path_is_reverse_of_path_reverse.2 _ 3 [] [AlignOp.ins, AlignOp.subst] (2, 1) rfl⟩

/-- Counterexample to C9: on a freshly constructed `FullMatches`, before any
match has been yielded, `start` does **not** return an absent result (the
`unsuccessfully_finished` flag is still `false`, so the query proceeds and
fabricates `Some 1`), and `alignment` returns `true`, contradicting the
claimed absent results before the first match. -/
theorem queries_present_before_first_match :
    freshFullMatches.start = some 1 ∧ freshFullMatches.start ≠ none ∧
    freshFullMatches.alignment = true := by decide

/-- C9 (amended): the queries `start`, `path`, `path_reverse` and `alignment`
of `FullMatches` yield an absent result (`None` / `false`) exactly when the
scan has ended without yielding a match (`unsuccessfully_finished` set);
whenever that flag is unset — including before any match has been yielded —
they return a present result derived from the most recently added traceback
column (after a yield, that is the most recently yielded match). -/
theorem fullmatches_queries_absent_iff_flag (fm : FullMatchesView) (ops : List AlignOp) :
    (fm.unsuccessfully_finished = true →
      fm.start = none ∧ fm.path_reverse ops = (ops, none) ∧
      fm.path ops = (ops, none) ∧ fm.alignment = false) ∧
    (fm.unsuccessfully_finished = false →
      fm.start = some (fm.pos + 1 - fm.tb.2.1) ∧
      (fm.path_reverse ops).2 = some (fm.pos + 1 - fm.tb.2.1) ∧
      (fm.path ops).2 = some (fm.pos + 1 - fm.tb.2.1) ∧
      fm.alignment = true) := by
  constructor <;> intro h <;>
    simp [FullMatchesView.start, FullMatchesView.path_reverse, FullMatchesView.path,
      FullMatchesView.alignment, h]

theorem fullmatches_queries_absent_iff_flag_witness :
    (⟨true, 7, ([AlignOp.del], 1, 1)⟩ : FullMatchesView).start = none ∧
    (⟨false, 7, ([AlignOp.del], 1, 1)⟩ : FullMatchesView).start = some 7 :=
  ⟨((fullmatches_queries_absent_iff_flag ⟨true, 7, ([AlignOp.del], 1, 1)⟩ []).1 rfl).1,
   ((fullmatches_queries_absent_iff_flag ⟨false, 7, ([AlignOp.del], 1, 1)⟩ []).2 rfl).1⟩

/-- C10: on an empty text, `distance` returns the distance type's maximum
value `Dmax` (the initial value of the running minimum, never updated), not
the pattern length. -/
theorem distance_on_empty_text (w Dmax : Nat) (p : List Nat) :
    distance w Dmax p [] = Dmax := rfl

theorem addCarry_zero (a b : Nat) : addCarry a b 0 = false := by
  simp [addCarry, Nat.mod_one]

theorem add_div_two_pow (a b i : Nat) :
    (a + b) / 2 ^ i = a / 2 ^ i + b / 2 ^ i + (a % 2 ^ i + b % 2 ^ i) / 2 ^ i := by
  have hpos : 0 < 2 ^ i := Nat.two_pow_pos i
  conv_lhs => rw [← Nat.div_add_mod a (2 ^ i), ← Nat.div_add_mod b (2 ^ i)]
  rw [show 2 ^ i * (a / 2 ^ i) + a % 2 ^ i + (2 ^ i * (b / 2 ^ i) + b % 2 ^ i)
        = a % 2 ^ i + b % 2 ^ i + 2 ^ i * (a / 2 ^ i + b / 2 ^ i) by ring]
  rw [Nat.add_mul_div_left _ _ hpos]
  omega

theorem carry_toNat (a b i : Nat) :
    (a % 2 ^ i + b % 2 ^ i) / 2 ^ i = (addCarry a b i).toNat := by
  have hpos : 0 < 2 ^ i := Nat.two_pow_pos i
  have ha : a % 2 ^ i < 2 ^ i := Nat.mod_lt _ hpos
  have hb : b % 2 ^ i < 2 ^ i := Nat.mod_lt _ hpos
  unfold addCarry
  rcases Nat.lt_or_ge (a % 2 ^ i + b % 2 ^ i) (2 ^ i) with h | h
  · rw [Nat.div_eq_of_lt h]
    simp [Nat.not_le.mpr h]
  · rw [Nat.div_eq_of_lt_le (by omega : 1 * 2 ^ i ≤ a % 2 ^ i + b % 2 ^ i)
      (by omega : a % 2 ^ i + b % 2 ^ i < (1 + 1) * 2 ^ i)]
    simp [h]

theorem testBit_add (a b i : Nat) :
    (a + b).testBit i = ((a.testBit i).xor ((b.testBit i).xor (addCarry a b i))) := by
  simp only [Nat.testBit_to_div_mod]
  rw [add_div_two_pow, carry_toNat]
  cases hc : addCarry a b i <;>
    rcases Nat.mod_two_eq_zero_or_one (a / 2 ^ i) with ha | ha <;>
    rcases Nat.mod_two_eq_zero_or_one (b / 2 ^ i) with hb | hb <;>
    simp_all <;> omega

theorem addCarry_succ (a b i : Nat) :
    addCarry a b (i + 1) =
      ((a.testBit i && b.testBit i) || ((a.testBit i || b.testBit i) && addCarry a b i)) := by
  have hpos : 0 < 2 ^ i := Nat.two_pow_pos i
  have hma : a % 2 ^ i < 2 ^ i := Nat.mod_lt _ hpos
  have hmb : b % 2 ^ i < 2 ^ i := Nat.mod_lt _ hpos
  have ha : a % 2 ^ (i + 1) = a % 2 ^ i + 2 ^ i * (a / 2 ^ i % 2) := Nat.mod_pow_succ
  have hb : b % 2 ^ (i + 1) = b % 2 ^ i + 2 ^ i * (b / 2 ^ i % 2) := Nat.mod_pow_succ
  have hpow : 2 ^ (i + 1) = 2 * 2 ^ i := by rw [Nat.pow_succ]; ring
  simp only [addCarry, Nat.testBit_to_div_mod, ha, hb, hpow]
  cases hca : Nat.decLt (a % 2 ^ i + b % 2 ^ i) (2 ^ i) <;>
    rcases Nat.mod_two_eq_zero_or_one (a / 2 ^ i) with ha2 | ha2 <;>
    rcases Nat.mod_two_eq_zero_or_one (b / 2 ^ i) with hb2 | hb2 <;>
    simp_all <;> omega

theorem eqmask_testBit (p : List Nat) (a : Nat) :
    ∀ i, (eqmask p a).testBit i = decide (p[i]? = some a) := by
  induction p with
  | nil => intro i; simp [eqmask]
  | cons b rest ih =>
    intro i
    cases i with
    | zero =>
      by_cases hb : b = a <;>
        simp [eqmask, Nat.testBit_zero, hb, Nat.add_mul_mod_self_left, Nat.mul_mod_right]
    | succ i =>
      have hdiv : ((if b = a then 1 else 0) + 2 * eqmask rest a) / 2 = eqmask rest a := by
        split <;> omega
      simp [eqmask, Nat.testBit_succ, hdiv, ih]

theorem dpNext_zero_def (p : List Nat) (a : Nat) (C : Nat → Nat) : dpNext p a C 0 = 0 := rfl

theorem dpNext_succ_def (p : List Nat) (a : Nat) (C : Nat → Nat) (i : Nat) :
    dpNext p a C (i + 1) =
      min (min (C i + subCost p a i) (dpNext p a C i + 1)) (C (i + 1) + 1) := rfl

theorem vertOK_id : VertOK id := by
  refine ⟨rfl, fun i => ?_⟩
  simp only [id]
  omega

theorem subCost_le_one (p : List Nat) (a i : Nat) : subCost p a i ≤ 1 := by
  unfold subCost; split <;> omega

theorem dpNext_diag_ge (p : List Nat) (a : Nat) (C : Nat → Nat) (hC : VertOK C) :
    ∀ i, C i ≤ dpNext p a C (i + 1) := by
  intro i
  induction i with
  | zero =>
    rw [hC.1]
    exact Nat.zero_le _
  | succ i ih =>
    have h1 := (hC.2 i).1
    have h3 := (hC.2 (i + 1)).2
    have hc := subCost_le_one p a (i + 1)
    rw [dpNext_succ_def]
    omega

theorem dpNext_diag_le (p : List Nat) (a : Nat) (C : Nat → Nat) (i : Nat) :
    dpNext p a C (i + 1) ≤ C i + 1 := by
  have hc := subCost_le_one p a i
  rw [dpNext_succ_def]
  omega

theorem dpNext_horiz (p : List Nat) (a : Nat) (C : Nat → Nat) (hC : VertOK C) :
    ∀ i, dpNext p a C i ≤ C i + 1 ∧ C i ≤ dpNext p a C i + 1 := by
  intro i
  cases i with
  | zero =>
    rw [hC.1, dpNext_zero_def]
    omega
  | succ i =>
    have h1 := dpNext_diag_ge p a C hC i
    have h2 := (hC.2 i).1
    constructor
    · rw [dpNext_succ_def]; omega
    · omega

theorem dpNext_vertOK (p : List Nat) (a : Nat) (C : Nat → Nat) (hC : VertOK C) :
    VertOK (dpNext p a C) := by
  refine ⟨rfl, fun i => ?_⟩
  constructor
  · rw [dpNext_succ_def]; omega
  · have h1 := (dpNext_horiz p a C hC i).1
    have h2 := dpNext_diag_ge p a C hC i
    omega

theorem vertOK_le (C : Nat → Nat) (hC : VertOK C) : ∀ i, C i ≤ i := by
  intro i
  induction i with
  | zero => exact Nat.le_of_eq hC.1
  | succ i ih =>
    have := (hC.2 i).1
    omega

theorem foldl_dpNext_vertOK (p : List Nat) :
    ∀ (t : List Nat) (C : Nat → Nat), VertOK C →
      VertOK (t.foldl (fun prev a => dpNext p a prev) C) := by
  intro t
  induction t with
  | nil => intro C hC; exact hC
  | cons a rest ih =>
    intro C hC
    exact ih _ (dpNext_vertOK p a C hC)

theorem dpCol_vertOK (p t : List Nat) : VertOK (dpCol p t) :=
  foldl_dpNext_vertOK p t id vertOK_id

theorem bool_eq_decide {b : Bool} {q : Prop} [Decidable q] (h : b = true ↔ q) : b = decide q := by
  by_cases hq : q
  · rw [h.mpr hq, decide_eq_true hq]
  · have hb : ¬b = true := fun hb => hq (h.mp hb)
    rw [Bool.not_eq_true] at hb
    rw [hb, decide_eq_false hq]

theorem eqmask_subCost (p : List Nat) (a i : Nat) :
    ((eqmask p a).testBit i = true) ↔ subCost p a i = 0 := by
  rw [eqmask_testBit]
  unfold subCost
  split <;> simp_all

theorem allOnes_testBit (w i : Nat) : (allOnes w).testBit i = decide (i < w) := by
  simp [allOnes]

theorem stepXh_testBit (w eqm pv i : Nat) (hiw : i < w) :
    (stepXh w eqm pv).testBit i = (eqm.testBit i || addCarry (eqm &&& pv) pv i) := by
  unfold stepXh
  rw [Nat.testBit_lor, Nat.testBit_xor, Nat.testBit_mod_two_pow, testBit_add]
  simp only [decide_eq_true hiw, Bool.true_and, Nat.testBit_land]
  cases eqm.testBit i <;> cases pv.testBit i <;> cases addCarry (eqm &&& pv) pv i <;> rfl

theorem stepMh_testBit (w eqm : Nat) (s : MState) (i : Nat) (hiw : i < w) :
    (stepMh w eqm s).testBit i =
      (s.pv.testBit i && (eqm.testBit i || addCarry (eqm &&& s.pv) s.pv i)) := by
  unfold stepMh
  rw [Nat.testBit_land, stepXh_testBit w eqm s.pv i hiw]

theorem stepPh_testBit (w eqm : Nat) (s : MState) (i : Nat) (hiw : i < w) :
    (stepPh w eqm s).testBit i =
      (s.mv.testBit i ||
        (!(eqm.testBit i || addCarry (eqm &&& s.pv) s.pv i) && !s.pv.testBit i)) := by
  unfold stepPh
  rw [Nat.testBit_lor, Nat.testBit_xor, Nat.testBit_land, Nat.testBit_lor, allOnes_testBit,
    stepXh_testBit w eqm s.pv i hiw]
  simp only [decide_eq_true hiw]
  cases s.mv.testBit i <;> cases s.pv.testBit i <;> cases eqm.testBit i <;>
    cases addCarry (eqm &&& s.pv) s.pv i <;> rfl

theorem stepMh_eq_addCarry_succ (w eqm : Nat) (s : MState) (i : Nat) (hiw : i < w) :
    (stepMh w eqm s).testBit i = addCarry (eqm &&& s.pv) s.pv (i + 1) := by
  rw [stepMh_testBit w eqm s i hiw, addCarry_succ]
  simp only [Nat.testBit_land]
  cases eqm.testBit i <;> cases s.pv.testBit i <;> cases addCarry (eqm &&& s.pv) s.pv i <;> rfl

theorem shift_mod_testBit (w x i : Nat) (hiw : i < w) :
    ((x <<< 1) % 2 ^ w).testBit i = (decide (1 ≤ i) && x.testBit (i - 1)) := by
  rw [Nat.testBit_mod_two_pow, Nat.testBit_shiftLeft]
  simp [hiw]

theorem shift_stepMh_testBit (w eqm : Nat) (s : MState) (i : Nat) (hiw : i < w) :
    ((stepMh w eqm s <<< 1) % 2 ^ w).testBit i = addCarry (eqm &&& s.pv) s.pv i := by
  rw [shift_mod_testBit w _ i hiw]
  cases i with
  | zero => simp [addCarry_zero]
  | succ j =>
    have hjw : j < w := by omega
    simp [stepMh_eq_addCarry_succ w eqm s j hjw]

theorem step_pv_testBit (w Dmax m eqm : Nat) (s : MState) (i : Nat) (hiw : i < w) :
    (step w Dmax m eqm s).pv.testBit i =
      (addCarry (eqm &&& s.pv) s.pv i ||
        (!(eqm.testBit i || s.mv.testBit i) &&
         !(decide (1 ≤ i) && (stepPh w eqm s).testBit (i - 1)))) := by
  show (((stepMh w eqm s <<< 1) % 2 ^ w) |||
      (allOnes w ^^^ (allOnes w &&& (stepXv eqm s.mv ||| ((stepPh w eqm s <<< 1) % 2 ^ w))))).testBit i
      = _
  rw [Nat.testBit_lor, shift_stepMh_testBit w eqm s i hiw, Nat.testBit_xor, Nat.testBit_land,
    Nat.testBit_lor, allOnes_testBit, shift_mod_testBit w _ i hiw]
  unfold stepXv
  rw [Nat.testBit_lor]
  simp only [decide_eq_true hiw]
  cases addCarry (eqm &&& s.pv) s.pv i <;> cases eqm.testBit i <;> cases s.mv.testBit i <;>
    cases (decide (1 ≤ i) && (stepPh w eqm s).testBit (i - 1)) <;> rfl

theorem step_mv_testBit (w Dmax m eqm : Nat) (s : MState) (i : Nat) (hiw : i < w) :
    (step w Dmax m eqm s).mv.testBit i =
      ((decide (1 ≤ i) && (stepPh w eqm s).testBit (i - 1)) &&
        (eqm.testBit i || s.mv.testBit i)) := by
  show (((stepPh w eqm s <<< 1) % 2 ^ w) &&& stepXv eqm s.mv).testBit i = _
  rw [Nat.testBit_land, shift_mod_testBit w _ i hiw]
  unfold stepXv
  rw [Nat.testBit_lor]

theorem step_dist_def (w Dmax m eqm : Nat) (s : MState) :
    (step w Dmax m eqm s).dist =
      if (stepPh w eqm s).testBit (m - 1) then min (s.dist + 1) Dmax
      else if (stepMh w eqm s).testBit (m - 1) then s.dist - 1
      else s.dist := rfl

theorem init_encodes (w m : Nat) (hmw : m ≤ w) : Encodes m (State.init w m) id := by
  refine ⟨rfl, fun i hi => ?_, fun i hi => ?_⟩
  · show (allOnes w).testBit i = true ↔ i + 1 = i + 1
    rw [allOnes_testBit]
    exact ⟨fun _ => rfl, fun _ => decide_eq_true (by omega)⟩
  · show (0 : Nat).testBit i = true ↔ i = i + 1 + 1
    rw [Nat.zero_testBit]
    exact ⟨fun h => absurd h Bool.false_ne_true, fun h => absurd h (by omega)⟩

/-- Semantics of the `Xh` addition carry: the carry into bit `i` records that
the new column is one below the old column at row `i` (a `-1` horizontal
delta). -/
theorem carry_sem (w : Nat) (p : List Nat) (a : Nat) (C : Nat → Nat) (s : MState)
    (hC : VertOK C) (henc : Encodes p.length s C) :
    ∀ i ≤ p.length,
      addCarry (eqmask p a &&& s.pv) s.pv i = decide (dpNext p a C i + 1 = C i) := by
  intro i
  induction i with
  | zero =>
    intro _
    rw [addCarry_zero, dpNext_zero_def]
    have h0 := hC.1
    symm
    exact decide_eq_false (by omega)
  | succ i ih =>
    intro hi
    have him : i < p.length := hi
    have hEb : (eqmask p a).testBit i = decide (subCost p a i = 0) :=
      bool_eq_decide (eqmask_subCost p a i)
    have hPb : s.pv.testBit i = decide (C (i + 1) = C i + 1) :=
      bool_eq_decide (henc.2.1 i him)
    rw [addCarry_succ, Nat.testBit_land, hEb, hPb, ih (Nat.le_of_lt him)]
    have hdg := dpNext_diag_ge p a C hC i
    have hdl := dpNext_diag_le p a C i
    have hh := dpNext_horiz p a C hC i
    have hv := hC.2 i
    have hcost := subCost_le_one p a i
    have hNdef := dpNext_succ_def p a C i
    apply bool_eq_decide
    simp only [Bool.or_eq_true, Bool.and_eq_true, decide_eq_true_eq]
    omega

/-- Semantics of `Ph`: bit `i` of `Ph` records a `+1` horizontal delta at row
`i + 1` (the new column is one above the old column there). -/
theorem ph_sem (w : Nat) (p : List Nat) (a : Nat) (C : Nat → Nat) (s : MState)
    (hw : p.length ≤ w) (hC : VertOK C) (henc : Encodes p.length s C) :
    ∀ i < p.length,
      (stepPh w (eqmask p a) s).testBit i =
        decide (dpNext p a C (i + 1) = C (i + 1) + 1) := by
  intro i him
  have hiw : i < w := lt_of_lt_of_le him hw
  have hEb : (eqmask p a).testBit i = decide (subCost p a i = 0) :=
    bool_eq_decide (eqmask_subCost p a i)
  have hPb : s.pv.testBit i = decide (C (i + 1) = C i + 1) :=
    bool_eq_decide (henc.2.1 i him)
  have hMb : s.mv.testBit i = decide (C i = C (i + 1) + 1) :=
    bool_eq_decide (henc.2.2 i him)
  rw [stepPh_testBit w _ s i hiw, hEb, hPb, hMb,
    carry_sem w p a C s hC henc i (Nat.le_of_lt him)]
  have hdg := dpNext_diag_ge p a C hC i
  have hdl := dpNext_diag_le p a C i
  have hh := dpNext_horiz p a C hC i
  have hv := hC.2 i
  have hcost := subCost_le_one p a i
  have hNdef := dpNext_succ_def p a C i
  apply bool_eq_decide
  simp only [Bool.or_eq_true, Bool.and_eq_true, Bool.not_eq_true', Bool.or_eq_false_iff,
    decide_eq_false_iff_not, decide_eq_true_eq]
  omega

/-- One transition preserves the invariant: stepping a state that encodes a
DP column on symbol `a` yields a state that encodes the next DP column. -/
theorem step_encodes (w Dmax : Nat) (p : List Nat) (a : Nat) (C : Nat → Nat) (s : MState)
    (hm : 0 < p.length) (hw : p.length ≤ w) (hD : p.length ≤ Dmax)
    (hC : VertOK C) (henc : Encodes p.length s C) :
    Encodes p.length (step w Dmax p.length (eqmask p a) s) (dpNext p a C) := by
  have hNOK : VertOK (dpNext p a C) := dpNext_vertOK p a C hC
  refine ⟨?_, ?_, ?_⟩
  · rw [step_dist_def, henc.1]
    have hm1 : p.length - 1 + 1 = p.length := by omega
    have hmw : p.length - 1 < w := by omega
    have hphb : (stepPh w (eqmask p a) s).testBit (p.length - 1)
        = decide (dpNext p a C p.length = C p.length + 1) := by
      have h := ph_sem w p a C s hw hC henc (p.length - 1) (by omega)
      rwa [hm1] at h
    have hmhb : (stepMh w (eqmask p a) s).testBit (p.length - 1)
        = decide (dpNext p a C p.length + 1 = C p.length) := by
      rw [stepMh_eq_addCarry_succ w _ s (p.length - 1) hmw, hm1]
      exact carry_sem w p a C s hC henc p.length le_rfl
    rw [hphb, hmhb]
    simp only [decide_eq_true_eq]
    have hb1 : dpNext p a C p.length ≤ p.length := vertOK_le _ hNOK p.length
    have hh := dpNext_horiz p a C hC p.length
    by_cases h1 : dpNext p a C p.length = C p.length + 1
    · rw [if_pos h1]; omega
    · rw [if_neg h1]
      by_cases h2 : dpNext p a C p.length + 1 = C p.length
      · rw [if_pos h2]; omega
      · rw [if_neg h2]; omega
  · intro i him
    have hiw : i < w := lt_of_lt_of_le him hw
    have hEb : (eqmask p a).testBit i = decide (subCost p a i = 0) :=
      bool_eq_decide (eqmask_subCost p a i)
    have hMb : s.mv.testBit i = decide (C i = C (i + 1) + 1) :=
      bool_eq_decide (henc.2.2 i him)
    have hcb := carry_sem w p a C s hC henc i (Nat.le_of_lt him)
    rw [step_pv_testBit w Dmax p.length (eqmask p a) s i hiw, hEb, hMb, hcb]
    have hN0 : dpNext p a C 0 = 0 := rfl
    have h0 := hC.1
    have hcost := subCost_le_one p a i
    have hNdef := dpNext_succ_def p a C i
    have hv := hC.2 i
    have hdg := dpNext_diag_ge p a C hC i
    have hdl := dpNext_diag_le p a C i
    have hh := dpNext_horiz p a C hC i
    have hvN := hNOK.2 i
    cases i with
    | zero =>
      have h10 : decide (1 ≤ (0 : Nat)) = false := rfl
      rw [h10, Bool.false_and, Bool.not_false, Bool.and_true]
      simp only [Bool.or_eq_true, Bool.not_eq_true', Bool.or_eq_false_iff,
        decide_eq_false_iff_not, decide_eq_true_eq]
      omega
    | succ j =>
      have h11 : decide (1 ≤ j + 1) = true := decide_eq_true (by omega)
      rw [h11, Bool.true_and, Nat.add_sub_cancel, ph_sem w p a C s hw hC henc j (by omega)]
      simp only [Bool.or_eq_true, Bool.and_eq_true, Bool.not_eq_true', Bool.or_eq_false_iff,
        decide_eq_false_iff_not, decide_eq_true_eq]
      omega
  · intro i him
    have hiw : i < w := lt_of_lt_of_le him hw
    have hEb : (eqmask p a).testBit i = decide (subCost p a i = 0) :=
      bool_eq_decide (eqmask_subCost p a i)
    have hMb : s.mv.testBit i = decide (C i = C (i + 1) + 1) :=
      bool_eq_decide (henc.2.2 i him)
    rw [step_mv_testBit w Dmax p.length (eqmask p a) s i hiw, hEb, hMb]
    have hN0 : dpNext p a C 0 = 0 := rfl
    have h0 := hC.1
    have hcost := subCost_le_one p a i
    have hNdef := dpNext_succ_def p a C i
    have hv := hC.2 i
    have hdg := dpNext_diag_ge p a C hC i
    have hdl := dpNext_diag_le p a C i
    have hh := dpNext_horiz p a C hC i
    have hvN := hNOK.2 i
    cases i with
    | zero =>
      have h10 : decide (1 ≤ (0 : Nat)) = false := rfl
      rw [h10, Bool.false_and, Bool.false_and]
      simp only [Bool.false_eq_true, false_iff]
      omega
    | succ j =>
      have h11 : decide (1 ≤ j + 1) = true := decide_eq_true (by omega)
      rw [h11, Bool.true_and, Nat.add_sub_cancel, ph_sem w p a C s hw hC henc j (by omega)]
      simp only [Bool.and_eq_true, Bool.or_eq_true, decide_eq_true_eq]
      omega

theorem distTrace_eq_dpTrace (w Dmax : Nat) (p : List Nat)
    (hm : 0 < p.length) (hw : p.length ≤ w) (hD : p.length ≤ Dmax) :
    ∀ (t : List Nat) (s : MState) (C : Nat → Nat), VertOK C → Encodes p.length s C →
      distTrace w Dmax p s t = dpTrace p C t := by
  intro t
  induction t with
  | nil => intros; rfl
  | cons a rest ih =>
    intro s C hC henc
    have hstep := step_encodes w Dmax p a C s hm hw hD hC henc
    have hNOK := dpNext_vertOK p a C hC
    simp only [distTrace, dpTrace]
    rw [hstep.1, ih _ _ hNOK hstep]

theorem dpTrace_eq_map (p : List Nat) :
    ∀ (t : List Nat) (C : Nat → Nat),
      dpTrace p C t = (List.range t.length).map
        (fun j => ((t.take (j + 1)).foldl (fun prev a => dpNext p a prev) C) p.length) := by
  intro t
  induction t with
  | nil => intro C; rfl
  | cons a rest ih =>
    intro C
    simp only [dpTrace, List.length_cons, List.range_succ_eq_map, List.map_cons, List.map_map]
    congr 1
    rw [ih (dpNext p a C)]
    rfl

theorem refDists_eq_dpTrace (p t : List Nat) : refDists p t = dpTrace p id t := by
  rw [dpTrace_eq_map]
  rfl

theorem distance_fold_aux (w Dmax : Nat) (p : List Nat) :
    ∀ (t : List Nat) (s : MState) (d : Nat),
      (t.foldl (fun acc a =>
          let s2 := step w Dmax p.length (eqmask p a) acc.2
          (if s2.dist < acc.1 then s2.dist else acc.1, s2)) (d, s)).1
        = (distTrace w Dmax p s t).foldl min d := by
  intro t
  induction t with
  | nil => intros; rfl
  | cons a rest ih =>
    intro s d
    simp only [List.foldl_cons, distTrace]
    rw [ih]
    congr 1
    have : (min d (step w Dmax p.length (eqmask p a) s).dist)
        = (if (step w Dmax p.length (eqmask p a) s).dist < d
            then (step w Dmax p.length (eqmask p a) s).dist else d) := by
      split <;> omega
    rw [← this]

theorem dpEnd_le (p t : List Nat) (j : Nat) : dpEnd p t j ≤ p.length :=
  vertOK_le _ (dpCol_vertOK p (t.take j)) p.length

theorem refDists_all_le (p t : List Nat) : ∀ x ∈ refDists p t, x ≤ p.length := by
  intro x hx
  simp only [refDists, List.mem_map] at hx
  obtain ⟨j, _, rfl⟩ := hx
  exact dpEnd_le p t (j + 1)

theorem foldl_min_listMin (l : List Nat) (d : Nat)
    (hle : ∀ x ∈ l, x ≤ d) (hne : l ≠ []) :
    some (l.foldl min d) = listMin l := by
  cases l with
  | nil => exact absurd rfl hne
  | cons a rest =>
    have ha : a ≤ d := hle a (by simp)
    simp only [List.foldl_cons, listMin]
    rw [show min d a = a by omega]

/-- C1: for every pattern that fits the word (`0 < m ≤ w`, with the distance
type wide enough, `m ≤ Dmax`) and every non-empty text, `distance` returns
the minimum of the reference quadratic DP's bottom row over all end
positions in the text. -/
theorem distance_eq_min_ref_dp (w Dmax : Nat) (p t : List Nat)
    (hm : 0 < p.length) (hw : p.length ≤ w) (hD : p.length ≤ Dmax) (ht : t ≠ []) :
    some (distance w Dmax p t) = listMin (refDists p t) := by
  unfold distance
  rw [distance_fold_aux w Dmax p t _ Dmax,
    distTrace_eq_dpTrace w Dmax p hm hw hD t _ id vertOK_id (init_encodes w p.length hw),
    ← refDists_eq_dpTrace]
  apply foldl_min_listMin
  · intro x hx
    have := refDists_all_le p t x hx
    omega
  · intro hnil
    apply ht
    have hlen : (refDists p t).length = t.length := by simp [refDists]
    rw [hnil] at hlen
    cases t with
    | nil => rfl
    | cons b u => simp at hlen

theorem distance_eq_min_ref_dp_witness :
    some (distance 4 100 [1, 2] [3, 1, 2, 2]) = listMin (refDists [1, 2] [3, 1, 2, 2]) :=
  distance_eq_min_ref_dp 4 100 [1, 2] [3, 1, 2, 2] (by decide) (by decide) (by decide)
    (by decide)

/-- Soundness of the shared scan loop: every yielded pair `(e, d)` is within
the bound and reports the reference DP bottom-row value of its column. -/
theorem matchesAux_mem (w Dmax maxDist : Nat) (p : List Nat)
    (hm : 0 < p.length) (hw : p.length ≤ w) (hD : p.length ≤ Dmax) :
    ∀ (t : List Nat) (s : MState) (C : Nat → Nat) (k : Nat),
      VertOK C → Encodes p.length s C →
      ∀ e d, (e, d) ∈ matchesAux w Dmax p.length maxDist p s k t →
        d ≤ maxDist ∧ k ≤ e ∧ e - k < t.length ∧
        d = ((t.take (e - k + 1)).foldl (fun prev a => dpNext p a prev) C) p.length := by
  intro t
  induction t with
  | nil =>
    intro s C k _ _ e d h
    simp [matchesAux] at h
  | cons a rest ih =>
    intro s C k hC henc e d h
    have hstep := step_encodes w Dmax p a C s hm hw hD hC henc
    have hNOK := dpNext_vertOK p a C hC
    simp only [matchesAux] at h
    by_cases hle : (step w Dmax p.length (eqmask p a) s).dist ≤ maxDist
    · rw [if_pos hle] at h
      rcases List.mem_cons.mp h with heq | hmem
      · have he : e = k := congrArg Prod.fst heq
        have hd : d = (step w Dmax p.length (eqmask p a) s).dist := congrArg Prod.snd heq
        subst he
        refine ⟨by omega, le_rfl, by simp, ?_⟩
        rw [Nat.sub_self, hd, hstep.1]
        rfl
      · have hr := ih _ _ (k + 1) hNOK hstep e d hmem
        refine ⟨hr.1, by omega, ?_, ?_⟩
        · simp only [List.length_cons]
          omega
        · rw [show e - k + 1 = (e - (k + 1) + 1) + 1 by omega, List.take_succ_cons,
            List.foldl_cons]
          exact hr.2.2.2
    · rw [if_neg hle] at h
      have hr := ih _ _ (k + 1) hNOK hstep e d h
      refine ⟨hr.1, by omega, ?_, ?_⟩
      · simp only [List.length_cons]
        omega
      · rw [show e - k + 1 = (e - (k + 1) + 1) + 1 by omega, List.take_succ_cons,
          List.foldl_cons]
        exact hr.2.2.2

/-- C2: every pair `(end, distance)` yielded by the eager end-only iterator
`find_all_end(text, max_dist)` satisfies `distance ≤ max_dist`, and
`distance` is the reference quadratic DP's minimum edit distance for an
occurrence of the pattern ending at that text position. -/
theorem find_all_end_sound (w Dmax maxDist : Nat) (p t : List Nat)
    (hm : 0 < p.length) (hw : p.length ≤ w) (hD : p.length ≤ Dmax) :
    ∀ e d, (e, d) ∈ find_all_end w Dmax p t maxDist →
      d ≤ maxDist ∧ e < t.length ∧ d = dpEnd p t (e + 1) := by
  intro e d h
  have hr := matchesAux_mem w Dmax (min maxDist Dmax) p hm hw hD t _ id 0 vertOK_id
    (init_encodes w p.length hw) e d h
  refine ⟨by omega, ?_, ?_⟩
  · have := hr.2.2.1
    omega
  · have h4 := hr.2.2.2
    rw [Nat.sub_zero] at h4
    exact h4

theorem find_all_end_sound_witness :
    (0 : Nat) ≤ 1 ∧ 1 < 3 ∧ (0 : Nat) = dpEnd [1, 2] [1, 2, 2] 2 :=
  find_all_end_sound 4 100 1 [1, 2] [1, 2, 2] (by decide) (by decide) (by decide) 1 0
    (by decide)

theorem min_by_key_cons (x : Nat × Nat) (xs : List (Nat × Nat)) :
    min_by_key (x :: xs) = some (pickFold x xs) := rfl

/-- When every scanned distance is within the bound, the scan yields every
position: the yield list is the enumerated distance trace. -/
theorem matchesAux_all (w Dmax maxDist : Nat) (p : List Nat) :
    ∀ (t : List Nat) (s : MState) (k : Nat),
      (∀ d ∈ distTrace w Dmax p s t, d ≤ maxDist) →
      matchesAux w Dmax p.length maxDist p s k t
        = enumDists k (distTrace w Dmax p s t) := by
  intro t
  induction t with
  | nil => intros; rfl
  | cons a rest ih =>
    intro s k hall
    have hhead : (step w Dmax p.length (eqmask p a) s).dist ≤ maxDist := by
      apply hall
      simp [distTrace]
    simp only [matchesAux, distTrace, enumDists]
    rw [if_pos hhead, ih _ (k + 1) (fun d hd => hall d (by simp [distTrace, hd]))]

theorem pickFold_enum :
    ∀ (l : List Nat) (k : Nat) (acc : Nat × Nat),
      (∀ j < l.length, (pickFold acc (enumDists k l)).2 ≤ l.getD j 0) ∧
      (pickFold acc (enumDists k l)).2 ≤ acc.2 ∧
      (pickFold acc (enumDists k l) = acc ∨
        ∃ j, j < l.length ∧ pickFold acc (enumDists k l) = (k + j, l.getD j 0) ∧
          (pickFold acc (enumDists k l)).2 < acc.2 ∧
          ∀ j2 < j, (pickFold acc (enumDists k l)).2 < l.getD j2 0) := by
  intro l
  induction l with
  | nil =>
    intro k acc
    exact ⟨fun j hj => absurd hj (by simp), le_rfl, Or.inl rfl⟩
  | cons d rest ih =>
    intro k acc
    have hunfold : pickFold acc (enumDists k (d :: rest))
        = pickFold (if d < acc.2 then (k, d) else acc) (enumDists (k + 1) rest) := rfl
    by_cases hlt : d < acc.2
    · rw [if_pos hlt] at hunfold
      have hr := ih (k + 1) (k, d)
      rw [hunfold]
      refine ⟨?_, ?_, ?_⟩
      · intro j hj
        cases j with
        | zero => exact hr.2.1
        | succ j2 => exact hr.1 j2 (by simp at hj; omega)
      · have := hr.2.1
        omega
      · rcases hr.2.2 with heq | ⟨j, hj, hjeq, hjlt, hjall⟩
        · refine Or.inr ⟨0, by simp, ?_, ?_, ?_⟩
          · rw [heq]; simp [List.getD]
          · rw [heq]; exact hlt
          · intro j2 hj2; omega
        · refine Or.inr ⟨j + 1, by simp; omega, ?_, ?_, ?_⟩
          · rw [hjeq]
            have : k + 1 + j = k + (j + 1) := by omega
            rw [this]
            rfl
          · omega
          · intro j2 hj2
            cases j2 with
            | zero =>
              show _ < d
              omega
            | succ j3 => exact hjall j3 (by omega)
    · rw [if_neg hlt] at hunfold
      have hr := ih (k + 1) acc
      rw [hunfold]
      refine ⟨?_, hr.2.1, ?_⟩
      · intro j hj
        cases j with
        | zero =>
          show _ ≤ d
          have := hr.2.1
          omega
        | succ j2 => exact hr.1 j2 (by simp at hj; omega)
      · rcases hr.2.2 with heq | ⟨j, hj, hjeq, hjlt, hjall⟩
        · exact Or.inl heq
        · refine Or.inr ⟨j + 1, by simp; omega, ?_, hjlt, ?_⟩
          · rw [hjeq]
            have : k + 1 + j = k + (j + 1) := by omega
            rw [this]
            rfl
          · intro j2 hj2
            cases j2 with
            | zero =>
              show _ < d
              omega
            | succ j3 => exact hjall j3 (by omega)

theorem refDists_getD (p t : List Nat) (j : Nat) (hj : j < t.length) :
    (refDists p t).getD j 0 = dpEnd p t (j + 1) := by
  rw [List.getD_eq_getElem?_getD]
  simp [refDists, List.getElem?_map, List.getElem?_range, hj]

/-- C5: on a non-empty text, `find_best_end` returns the end position with
the minimum bottom-row distance of the reference DP, and on ties the
earliest such end position (every strictly earlier position has a strictly
larger distance). -/
theorem find_best_end_is_earliest_min (w Dmax : Nat) (p t : List Nat)
    (hm : 0 < p.length) (hw : p.length ≤ w) (hD : p.length ≤ Dmax) (ht : t ≠ []) :
    ∃ e, e < t.length ∧
      find_best_end w Dmax p t = some (e, dpEnd p t (e + 1)) ∧
      (∀ j < t.length, dpEnd p t (e + 1) ≤ dpEnd p t (j + 1)) ∧
      (∀ j < e, dpEnd p t (e + 1) < dpEnd p t (j + 1)) := by
  have hlen : (refDists p t).length = t.length := by simp [refDists]
  have htr : distTrace w Dmax p (State.init w p.length) t = refDists p t := by
    rw [distTrace_eq_dpTrace w Dmax p hm hw hD t _ id vertOK_id (init_encodes w p.length hw),
      ← refDists_eq_dpTrace]
  have hall : ∀ d ∈ distTrace w Dmax p (State.init w p.length) t, d ≤ Dmax := by
    rw [htr]
    intro d hd
    have := refDists_all_le p t d hd
    omega
  have hfae : find_all_end w Dmax p t Dmax = enumDists 0 (refDists p t) := by
    unfold find_all_end
    rw [show min Dmax Dmax = Dmax by omega,
      matchesAux_all w Dmax Dmax p t (State.init w p.length) 0 hall, htr]
  rcases hrd : refDists p t with _ | ⟨x, xs⟩
  · rw [hrd] at hlen
    cases t with
    | nil => exact absurd rfl ht
    | cons b u => simp at hlen
  · have hgetD : ∀ j, j < t.length → (x :: xs).getD j 0 = dpEnd p t (j + 1) := by
      intro j hj
      rw [← hrd]
      exact refDists_getD p t j hj
    have hcons : ∀ j, (x :: xs).getD (j + 1) 0 = xs.getD j 0 := fun j => rfl
    have hx : (x :: xs).getD 0 0 = x := rfl
    have hxslen : xs.length + 1 = t.length := by
      rw [hrd] at hlen
      simpa using hlen
    have hmbk : find_best_end w Dmax p t = some (pickFold (0, x) (enumDists 1 xs)) := by
      unfold find_best_end
      rw [hfae, hrd]
      rfl
    have hx1 : x = dpEnd p t 1 := by
      rw [← hx]
      exact hgetD 0 (by omega)
    have hr := pickFold_enum xs 1 (0, x)
    rcases hr.2.2 with heq | ⟨j, hj, hjeq, hjlt, hjall⟩
    · refine ⟨0, by omega, ?_, ?_, ?_⟩
      · rw [hmbk, heq, hx1]
      · intro j hj2
        cases j with
        | zero => omega
        | succ j2 =>
          have h1 := hr.1 j2 (by omega)
          rw [heq] at h1
          have h2 := hgetD (j2 + 1) hj2
          rw [hcons j2] at h2
          rw [← hx1, ← h2]
          exact h1
      · intro j hj2
        omega
    · have hre : (pickFold (0, x) (enumDists 1 xs)).2 = xs.getD j 0 := by
        rw [hjeq]
      refine ⟨j + 1, by omega, ?_, ?_, ?_⟩
      · rw [hmbk, hjeq]
        have hd2 : dpEnd p t (j + 1 + 1) = xs.getD j 0 := by
          rw [← hgetD (j + 1) (by omega), hcons j]
        rw [hd2, show 1 + j = j + 1 by omega]
      · intro j2 hj2
        have hd2 : dpEnd p t (j + 1 + 1) = xs.getD j 0 := by
          rw [← hgetD (j + 1) (by omega), hcons j]
        rw [hd2]
        cases j2 with
        | zero =>
          rw [← hx1]
          have := hr.2.1
          rw [hre] at this
          exact this
        | succ j3 =>
          have h1 := hr.1 j3 (by omega)
          rw [hre] at h1
          have h2 := hgetD (j3 + 1) hj2
          rw [hcons j3] at h2
          rw [← h2]
          exact h1
      · intro j2 hj2
        have hd2 : dpEnd p t (j + 1 + 1) = xs.getD j 0 := by
          rw [← hgetD (j + 1) (by omega), hcons j]
        rw [hd2]
        cases j2 with
        | zero =>
          rw [← hx1]
          rw [hre] at hjlt
          exact hjlt
        | succ j3 =>
          have h1 := hjall j3 (by omega)
          rw [hre] at h1
          have h2 := hgetD (j3 + 1) (by omega)
          rw [hcons j3] at h2
          rw [← h2]
          exact h1

theorem find_best_end_is_earliest_min_witness :
    ∃ e, e < 3 ∧
      find_best_end 4 100 [1] [2, 1, 1] = some (e, dpEnd [1] [2, 1, 1] (e + 1)) ∧
      (∀ j < 3, dpEnd [1] [2, 1, 1] (e + 1) ≤ dpEnd [1] [2, 1, 1] (j + 1)) ∧
      (∀ j < e, dpEnd [1] [2, 1, 1] (e + 1) < dpEnd [1] [2, 1, 1] (j + 1)) :=
  find_best_end_is_earliest_min 4 100 [1] [2, 1, 1] (by decide) (by decide) (by decide)
    (by decide)

theorem mod_two_eq_toNat_testBit (z : Nat) : z % 2 = (z.testBit 0).toNat := by
  rw [Nat.testBit_zero]
  rcases Nat.mod_two_eq_zero_or_one z with h | h <;> simp [h]

theorem land_mask_div_two (y n : Nat) :
    (y &&& (2 ^ (n + 1) - 1)) / 2 = (y / 2) &&& (2 ^ n - 1) := by
  apply Nat.eq_of_testBit_eq
  intro i
  rw [Nat.testBit_div_two, Nat.testBit_land, Nat.testBit_land, Nat.testBit_div_two,
    Nat.testBit_two_pow_sub_one, Nat.testBit_two_pow_sub_one]
  have : decide (i + 1 < n + 1) = decide (i < n) := decide_eq_decide.mpr (by omega)
  rw [this]

theorem land_mask_testBit_zero (y n : Nat) :
    (y &&& (2 ^ (n + 1) - 1)).testBit 0 = y.testBit 0 := by
  rw [Nat.testBit_land, Nat.testBit_two_pow_sub_one]
  simp

theorem popcount_land_mask (n : Nat) :
    ∀ y, popcount (y &&& (2 ^ n - 1)) = countLow y n := by
  induction n with
  | zero =>
    intro y
    have h : (2 : Nat) ^ 0 - 1 = 0 := rfl
    rw [h, Nat.and_zero]
    rfl
  | succ n ih =>
    intro y
    rw [popcount_div2, land_mask_div_two, ih (y / 2), mod_two_eq_toNat_testBit,
      land_mask_testBit_zero]
    rfl

theorem popcount_two_mul (y : Nat) : popcount (2 * y) = popcount y := by
  rw [popcount_div2, Nat.mul_mod_right, Nat.mul_div_cancel_left _ (by omega : (0 : Nat) < 2),
    Nat.zero_add]

theorem popcount_shiftLeft (z : Nat) : ∀ k, popcount (z <<< k) = popcount z := by
  intro k
  induction k with
  | zero => rw [Nat.shiftLeft_zero]
  | succ k ih => rw [Nat.shiftLeft_succ, popcount_two_mul, ih]

theorem land_mask_shift (x n k : Nat) :
    x &&& ((2 ^ n - 1) <<< k) = ((x >>> k) &&& (2 ^ n - 1)) <<< k := by
  apply Nat.eq_of_testBit_eq
  intro i
  rw [Nat.testBit_land, Nat.testBit_shiftLeft, Nat.testBit_shiftLeft, Nat.testBit_land,
    Nat.testBit_shiftRight, Nat.testBit_two_pow_sub_one]
  by_cases hk : k ≤ i
  · have hki : k + (i - k) = i := by omega
    have hd : decide (i ≥ k) = true := decide_eq_true hk
    rw [hki, hd]
    cases x.testBit i <;> cases decide (i - k < n) <;> rfl
  · have hd : decide (i ≥ k) = false := decide_eq_false hk
    rw [hd]
    cases x.testBit i <;> rfl

theorem popcount_masked (x n k : Nat) :
    popcount (x &&& ((2 ^ n - 1) <<< k)) = countLow (x >>> k) n := by
  rw [land_mask_shift, popcount_shiftLeft, popcount_land_mask]

theorem countLow_succ_shift (x k j : Nat) :
    countLow (x >>> k) (j + 1) = (x.testBit k).toNat + countLow (x >>> (k + 1)) j := by
  show ((x >>> k).testBit 0).toNat + countLow ((x >>> k) / 2) j = _
  rw [Nat.testBit_shiftRight, ← Nat.shiftRight_succ, Nat.add_zero]

theorem land_eq_zero_testBit {a b : Nat} (h : a &&& b = 0) :
    ∀ i, ¬(a.testBit i = true ∧ b.testBit i = true) := by
  intro i hib
  have hb : (a &&& b).testBit i = true := by
    rw [Nat.testBit_land, hib.1, hib.2]
    rfl
  rw [h, Nat.zero_testBit] at hb
  exact Bool.false_ne_true hb

/-- Evaluation of the single-bit-walk `_adjust_up_by` chain: starting at bit
`k`, `n` repetitions move the distance by the counts of `mv`/`pv` bits in
`[k, k + n)`, provided every intermediate distance stays in `[0, Dmax]`. -/
theorem iterated_adjust_spec (Dmax w : Nat) :
    ∀ (n k pv mv d : Nat),
      (∀ i, ¬(pv.testBit i = true ∧ mv.testBit i = true)) →
      k + n ≤ w →
      (∀ j ≤ n, countLow (pv >>> k) j ≤ d + countLow (mv >>> k) j ∧
        d + countLow (mv >>> k) j - countLow (pv >>> k) j ≤ Dmax) →
      _adjust_up_by Dmax w ⟨pv, mv, d⟩ (2 ^ k) n
        = some ⟨pv, mv, d + countLow (mv >>> k) n - countLow (pv >>> k) n⟩ := by
  intro n
  induction n with
  | zero =>
    intro k pv mv d _ _ _
    show some (⟨pv, mv, d⟩ : MState) = _
    have h : d + countLow (mv >>> k) 0 - countLow (pv >>> k) 0 = d := rfl
    rw [h]
  | succ n ih =>
    intro k pv mv d hdisj hkw hrep
    have hbp1 : (pv.testBit k).toNat ≤ 1 := by cases pv.testBit k <;> simp
    have hbm1 : (mv.testBit k).toNat ≤ 1 := by cases mv.testBit k <;> simp
    have hd1 := hrep 1 (by omega)
    rw [countLow_succ_shift, countLow_succ_shift] at hd1
    have hc0p : countLow (pv >>> (k + 1)) 0 = 0 := rfl
    have hc0m : countLow (mv >>> (k + 1)) 0 = 0 := rfl
    rw [hc0p, hc0m] at hd1
    have hstep : adjust_one_up Dmax ⟨pv, mv, d⟩ (2 ^ k)
        = some ⟨pv, mv, d + (mv.testBit k).toNat - (pv.testBit k).toNat⟩ := by
      unfold adjust_one_up
      cases hbp : pv.testBit k
      · have h1 : pv &&& 2 ^ k = 0 := by
          rw [Nat.and_two_pow, hbp]
          simp
        cases hbm : mv.testBit k
        · have h2 : mv &&& 2 ^ k = 0 := by
            rw [Nat.and_two_pow, hbm]
            simp
          simp [h1, h2]
        · have h2 : mv &&& 2 ^ k = 2 ^ k := by
            rw [Nat.and_two_pow, hbm]
            simp
          have hpos : (0 : Nat) < 2 ^ k := Nat.two_pow_pos k
          rw [hbp, hbm] at hd1
          simp only [Bool.toNat_false, Bool.toNat_true] at hd1
          have hle : d + 1 ≤ Dmax := by omega
          simp [h1, h2, Nat.pos_iff_ne_zero.mp hpos, hle]
      · have h1 : pv &&& 2 ^ k = 2 ^ k := by
          rw [Nat.and_two_pow, hbp]
          simp
        have hbm : mv.testBit k = false := by
          cases hbm2 : mv.testBit k
          · rfl
          · exact absurd ⟨hbp, hbm2⟩ (hdisj k)
        rw [hbp, hbm] at hd1
        simp only [Bool.toNat_false, Bool.toNat_true] at hd1
        have hdpos : d ≠ 0 := by omega
        have hpos : (0 : Nat) < 2 ^ k := Nat.two_pow_pos k
        rw [hbm]
        simp [h1, Nat.pos_iff_ne_zero.mp hpos, hdpos]
    show (adjust_one_up Dmax ⟨pv, mv, d⟩ (2 ^ k)).bind _ = _
    rw [hstep, Option.some_bind]
    rw [countLow_succ_shift, countLow_succ_shift]
    cases n with
    | zero =>
      show some (⟨pv, mv, _⟩ : MState) = _
      have h : d + ((mv.testBit k).toNat + countLow (mv >>> (k + 1)) 0)
          - ((pv.testBit k).toNat + countLow (pv >>> (k + 1)) 0)
          = d + (mv.testBit k).toNat - (pv.testBit k).toNat := by
        rw [hc0p, hc0m]
        omega
      rw [h]
    | succ n2 =>
      have hmask : (2 ^ k <<< 1) % 2 ^ w = 2 ^ (k + 1) := by
        rw [Nat.shiftLeft_eq, Nat.pow_one, ← Nat.pow_succ]
        exact Nat.mod_eq_of_lt (Nat.pow_lt_pow_right (by omega) (by omega))
      rw [hmask]
      have hrep2 : ∀ j ≤ n2 + 1,
          countLow (pv >>> (k + 1)) j
            ≤ (d + (mv.testBit k).toNat - (pv.testBit k).toNat)
              + countLow (mv >>> (k + 1)) j ∧
          (d + (mv.testBit k).toNat - (pv.testBit k).toNat)
              + countLow (mv >>> (k + 1)) j - countLow (pv >>> (k + 1)) j ≤ Dmax := by
        intro j hj
        have h := hrep (j + 1) (by omega)
        rw [countLow_succ_shift, countLow_succ_shift] at h
        omega
      rw [ih (k + 1) pv mv _ hdisj (by omega) hrep2]
      have h := hrep (n2 + 1 + 1) le_rfl
      rw [countLow_succ_shift, countLow_succ_shift] at h
      have heq : (d + (mv.testBit k).toNat - (pv.testBit k).toNat)
            + countLow (mv >>> (k + 1)) (n2 + 1) - countLow (pv >>> (k + 1)) (n2 + 1)
          = d + ((mv.testBit k).toNat + countLow (mv >>> (k + 1)) (n2 + 1))
            - ((pv.testBit k).toNat + countLow (pv >>> (k + 1)) (n2 + 1)) := by
        omega
      rw [heq]

/-- C4: for a state with disjoint `pv`/`mv`, a single-bit mask `2 ^ k`, and a
count `n` whose successive shifts stay within the word, with every
intermediate distance representable, the `n`-step single-bit walk
`_adjust_up_by` produces exactly the same result as one `adjust_up_by` call
with the union mask `(2 ^ n - 1) <<< k`, namely the distance moved by the
bit counts of `mv`/`pv` over the range. -/
theorem iterated_adjust_eq_adjust_up_by (w Dmax k n : Nat) (s : MState)
    (hw64 : w ≤ 64) (hD : Dmax < 2 ^ 64) (hd : s.dist ≤ Dmax)
    (hpv : s.pv < 2 ^ w) (hdisj : s.pv &&& s.mv = 0) (hkn : k + n ≤ w)
    (hrep : ∀ j ≤ n, countLow (s.pv >>> k) j ≤ s.dist + countLow (s.mv >>> k) j ∧
      s.dist + countLow (s.mv >>> k) j - countLow (s.pv >>> k) j ≤ Dmax) :
    _adjust_up_by Dmax w s (2 ^ k) n = adjust_up_by Dmax s ((2 ^ n - 1) <<< k) ∧
    _adjust_up_by Dmax w s (2 ^ k) n
      = some ⟨s.pv, s.mv, s.dist + countLow (s.mv >>> k) n - countLow (s.pv >>> k) n⟩ := by
  obtain ⟨pv, mv, d⟩ := s
  have hch := iterated_adjust_spec Dmax w n k pv mv d (land_eq_zero_testBit hdisj) hkn hrep
  have hpm : popcount (pv &&& ((2 ^ n - 1) <<< k)) = countLow (pv >>> k) n :=
    popcount_masked pv n k
  have hmm : popcount (mv &&& ((2 ^ n - 1) <<< k)) = countLow (mv >>> k) n :=
    popcount_masked mv n k
  have hba := adjust_up_by_eval w Dmax ⟨pv, mv, d⟩ ((2 ^ n - 1) <<< k) hw64 hpv hD hd
    (by simpa [hpm, hmm] using (hrep n le_rfl).1)
    (by simpa [hpm, hmm] using (hrep n le_rfl).2)
  rw [hpm, hmm] at hba
  exact ⟨by rw [hch, hba], hch⟩

theorem iterated_adjust_eq_adjust_up_by_witness :
    _adjust_up_by 10 4 ⟨6, 1, 2⟩ (2 ^ 0) 2 = adjust_up_by 10 ⟨6, 1, 2⟩ ((2 ^ 2 - 1) <<< 0) ∧
    _adjust_up_by 10 4 ⟨6, 1, 2⟩ (2 ^ 0) 2 = some ⟨6, 1, 2⟩ :=
  iterated_adjust_eq_adjust_up_by 4 10 0 2 ⟨6, 1, 2⟩ (by decide) (by decide) (by decide)
    (by decide) (by decide) (by decide) (by decide)
